import Mathlib

/-!
# Verification of `build_health.py`

A shallow embedding of the core of `build_health.py`: build-event outcome
extraction (`read_build_event_protocol`), package-key derivation
(`get_package`), package-forest construction (`build_package_forest`),
bottom-up aggregation (`compute_counts`) and report rendering
(`print_forest`, overall percentage), together with theorems settling the
specification claims.

Modelling conventions:
* Python `dict` values for target outcomes are `None` or strings; this is
  embedded as `PyOutcome` (`none` for the Python `None`, `str s` for a
  string value `s`).  An outcome dictionary is an insertion-ordered
  association list with distinct keys, exactly like a Python dict.
* Python float division is embedded as exact rational division that fails
  (ZeroDivisionError) when the divisor is zero, as in Python.
* `str.startswith` is embedded as character-list prefix testing, and
  Python string comparison (`sorted`, `<`) as lexicographic comparison of
  character lists by code point, both of which agree with Python exactly.
* Python `sorted` (a stable sort) is embedded as a stable insertion sort,
  which is extensionally equal to any stable sort by the same key.
-/

/-- A value stored in the Python `outcomes` dict: `None` (a configured but
not completed target) or a string. -/
inductive PyOutcome where
  | none : PyOutcome
  | str (s : String) : PyOutcome
deriving DecidableEq

/-- `s.startswith(p)` from Python: the characters of `p` are an initial
segment of the characters of `s`. -/
def pyStartswith (s p : String) : Bool :=
  p.data.isPrefixOf s.data

/-- Python string comparison `a < b` (lexicographic by code point). -/
def pyStrLt (a b : String) : Bool :=
  decide (a.data < b.data)

/-- Python `a / b` on numbers embedded as rationals: raises
`ZeroDivisionError` when `b = 0`. -/
def pyDiv (a b : ℚ) : Except String ℚ :=
  if b = 0 then .error "ZeroDivisionError: division by zero" else .ok (a / b)

/-- An apostrophe character, kept out of string literals. -/
def apos : Char := Char.ofNat 39

/-- The message of the `RuntimeError` raised by `read_build_event_protocol`
for a completion event whose label was never configured
(`Haven't seen this target before: <label>`). -/
def notSeenMsg (label : String) : String :=
  "Haven" ++ String.singleton apos ++ "t seen this target before: " ++ label

/-- Python dict assignment `m[k] = v`: replace in place if the key exists,
else append (insertion order preserved). -/
def dictSet (m : List (String × PyOutcome)) (k : String) (v : PyOutcome) :
    List (String × PyOutcome) :=
  match m with
  | [] => [(k, v)]
  | (k', v') :: rest => if k' = k then (k, v) :: rest else (k', v') :: dictSet rest k v

/-- Python `k in m` for a dict embedded as an association list. -/
def dictContains (m : List (String × PyOutcome)) (k : String) : Bool :=
  m.any (fun p => p.1 = k)

/-- Python dict lookup `m[k]`, as an `Option` (`none` = `KeyError`). -/
def dictGet (m : List (String × PyOutcome)) (k : String) : Option PyOutcome :=
  (m.find? (fun p => p.1 = k)).map Prod.snd

/-- Embedding of `re.search(r"^(.*?):", target)` on the character list:
the pattern is anchored at the start, `.` does not match a newline, and
the non-greedy group is the shortest run of non-newline characters before
a `:`.  Hence the match succeeds iff a `:` occurs with no newline before
it, and the group is the prefix before the first `:`. -/
def getPackageChars : List Char → Option (List Char)
  | [] => Option.none
  | c :: rest =>
    if c = ':' then some []
    else if c = '\n' then Option.none
    else (getPackageChars rest).map (fun l => c :: l)

/-- `get_package` from the source: the regex group when the regex matches,
`none` standing for the raised `RuntimeError`. -/
def get_package (target : String) : Option String :=
  (getPackageChars target.data).map (fun l => String.mk l)

/-- `PackageTreeNode`: package key, depth, children, and the four counters
(direct successes, direct targets, subtree successes, subtree targets). -/
inductive PTree where
  | node (package : String) (depth : Nat) (children : List PTree)
      (package_num_successes package_num_targets
        subtree_num_successes subtree_num_targets : Nat) : PTree

def PTree.package : PTree → String
  | .node p _ _ _ _ _ _ => p

def PTree.depth : PTree → Nat
  | .node _ d _ _ _ _ _ => d

def PTree.children : PTree → List PTree
  | .node _ _ cs _ _ _ _ => cs

def PTree.package_num_successes : PTree → Nat
  | .node _ _ _ a _ _ _ => a

def PTree.package_num_targets : PTree → Nat
  | .node _ _ _ _ b _ _ => b

def PTree.subtree_num_successes : PTree → Nat
  | .node _ _ _ _ _ c _ => c

def PTree.subtree_num_targets : PTree → Nat
  | .node _ _ _ _ _ _ e => e

/-- `node.depth = d` assignment (the only mutation of an existing node the
insertion code performs). -/
def PTree.withDepth : PTree → Nat → PTree
  | .node p _ cs a b c e, d => .node p d cs a b c e

/-- `PackageTreeNode(package, depth)`: fresh node, no children, zero
counters. -/
def mkNode (package : String) (depth : Nat) : PTree :=
  .node package depth [] 0 0 0 0

mutual

/-- Number of nodes of a tree (for termination measures). -/
def PTree.size : PTree → Nat
  | .node _ _ cs _ _ _ _ => 1 + sizeList cs

def sizeList : List PTree → Nat
  | [] => 0
  | t :: ts => PTree.size t + sizeList ts

end

mutual

/-- Multiset of package keys of all nodes of a tree (root first). -/
def PTree.packages : PTree → List String
  | .node p _ cs _ _ _ _ => p :: packagesList cs

def packagesList : List PTree → List String
  | [] => []
  | t :: ts => t.packages ++ packagesList ts

end

mutual

/-- `insert_node_into_tree(root, node)`: scan `root.children` in order; the
first child whose package is a string-prefix of the node's package absorbs
the node recursively; if none matches, the node is appended as a child at
depth `root.depth + 1`. -/
def insert_node_into_tree (root : PTree) (node : PTree) : PTree :=
  match root with
  | .node p d cs a b c e =>
    match insertChild cs node with
    | some cs' => .node p d cs' a b c e
    | Option.none => .node p d (cs ++ [node.withDepth (d + 1)]) a b c e

/-- The `for child in root.children` loop with its `break`: `some cs'` when
the first matching child absorbed the node, `none` when no child matched. -/
def insertChild : List PTree → PTree → Option (List PTree)
  | [], _ => Option.none
  | c :: rest, node =>
    if pyStartswith node.package c.package then
      some (insert_node_into_tree c node :: rest)
    else
      match insertChild rest node with
      | some rest' => some (c :: rest')
      | Option.none => Option.none

end

/-- `insert_node_into_forest(roots, node)`: the first root whose package is
a string-prefix of the node's package absorbs it; otherwise the node is
appended as a new root at depth 0. -/
def insert_node_into_forest (roots : List PTree) (node : PTree) : List PTree :=
  match roots with
  | [] => [node.withDepth 0]
  | r :: rest =>
    if pyStartswith node.package r.package then insert_node_into_tree r node :: rest
    else r :: insert_node_into_forest rest node

/-- `build_package_forest(package_lst)`. -/
def build_package_forest (package_lst : List String) : List PTree :=
  package_lst.foldl (fun result package => insert_node_into_forest result (mkNode package 0)) []

mutual

/-- `compute_counts(node, targets_from_package, outcomes)`: post-order; the
children are aggregated first, then the node's direct counts are taken from
its package's target list, and the subtree counts are direct counts plus
the children's subtree counts. -/
def compute_counts (node : PTree) (targets_from_package : String → List String)
    (outcomes : String → PyOutcome) : PTree :=
  match node with
  | .node p d cs _ _ _ _ =>
    let cs' := compute_counts_list cs targets_from_package outcomes
    let subtree_number_of_targets := (cs'.map PTree.subtree_num_targets).sum
    let subtree_number_of_successes := (cs'.map PTree.subtree_num_successes).sum
    let targets := targets_from_package p
    let pnt := targets.length
    let pns := targets.countP (fun t => outcomes t == PyOutcome.str "success")
    .node p d cs' pns pnt
      (subtree_number_of_successes + pns) (subtree_number_of_targets + pnt)

def compute_counts_list (cs : List PTree) (targets_from_package : String → List String)
    (outcomes : String → PyOutcome) : List PTree :=
  match cs with
  | [] => []
  | c :: rest =>
    compute_counts c targets_from_package outcomes ::
      compute_counts_list rest targets_from_package outcomes

end

/-- Insert `x` into an already sorted list, after every element whose key
is strictly smaller and before the rest (so that the resulting sort is
stable, like Python `sorted`). -/
def insertByKey {α : Type} (key : α → String) (x : α) : List α → List α
  | [] => [x]
  | y :: ys =>
    if pyStrLt (key y) (key x) then y :: insertByKey key x ys else x :: y :: ys

/-- Python `sorted(l, key=key)`: stable ascending sort by a string key. -/
def sortByKey {α : Type} (key : α → String) : List α → List α
  | [] => []
  | x :: xs => insertByKey key x (sortByKey key xs)

/-- Python format `{q:.1%}`: `q` as a percentage with one decimal digit.
The exact rational is rounded to the nearest thousandth of a unit (the
model rounds half upward; Python, formatting a binary float, rounds the
nearest double half to even — the two agree except on exact decimal ties,
which no claim exercises). `q` is a quotient of counts, hence nonnegative. -/
def format_one_pct (q : ℚ) : String :=
  let n : Nat := (round (q * 1000)).toNat
  toString (n / 10) ++ "." ++ toString (n % 10) ++ "%"

/-- Python format `{q:.2f}`: two decimal digits, same rounding model as
`format_one_pct`. -/
def format_two_dec (q : ℚ) : String :=
  let n : Nat := (round (q * 100)).toNat
  toString (n / 100) ++ "." ++
    (if n % 100 < 10 then "0" ++ toString (n % 100) else toString (n % 100))

/-- `"|" * depth + chr(0x251c)`: the indentation of a node line. -/
def indentation (depth : Nat) : String :=
  String.mk (List.replicate depth '|') ++ "├"

/-- The f-string printed for a package node. -/
def packageLine (node : PTree) (package_success_fraction : ℚ) : String :=
  indentation node.depth ++ "Package " ++ node.package ++ ":all build percentage: " ++
    format_one_pct package_success_fraction ++ " (" ++
    toString node.package_num_successes ++ "/" ++
    toString node.package_num_targets ++ ")"

/-- How Python renders an outcome value inside an f-string (`None` for the
Python `None`). -/
def outcomeText : PyOutcome → String
  | .none => "None"
  | .str s => s

/-- The f-string printed for an individual target. -/
def targetLine (depth : Nat) (t : String) (o : PyOutcome) : String :=
  " " ++ indentation depth ++ "Target " ++ t ++ " : " ++ outcomeText o

/-- The `for t in package_to_target[node.package]` loop of `print_forest`:
one line per target satisfying
`(outcome_of[t] == "success" and expand) or outcome_of[t] != "success"`. -/
def target_lines (node : PTree) (package_to_target : String → List String)
    (outcome_of : String → PyOutcome) (expand : Bool) : List String :=
  ((package_to_target node.package).filter
      (fun t => (outcome_of t == PyOutcome.str "success" && expand) ||
        !(outcome_of t == PyOutcome.str "success"))).map
    (fun t => targetLine node.depth t (outcome_of t))

/-- Result of a `print_forest` run: the packages of the nodes popped from
the work queue in order (instrumentation making the traversal observable),
the printed lines in order, and the pending exception, if the loop stopped
on a `ZeroDivisionError` (everything printed before it is kept, as in
Python). -/
structure ReportResult where
  visits : List String
  lines : List String
  err : Option String
deriving DecidableEq

/-- The `while queue` loop of `print_forest`.  Each iteration pops the
front node, computes the subtree fraction (a possible division by zero),
and when `subtree_success_fraction < 1 or expand` holds prints the node
line, optionally the individual target lines, and splices the node's
children, sorted by package, onto the front of the queue. -/
def print_forest_loop (queue : List PTree) (package_to_target : String → List String)
    (outcome_of : String → PyOutcome) (print_individual_targets expand : Bool) :
    ReportResult :=
  match queue with
  | [] => ⟨[], [], Option.none⟩
  | node :: rest =>
    match pyDiv node.subtree_num_successes node.subtree_num_targets with
    | .error e => ⟨[node.package], [], some e⟩
    | .ok subtree_success_fraction =>
      if subtree_success_fraction < 1 ∨ expand then
        match pyDiv node.package_num_successes node.package_num_targets with
        | .error e => ⟨[node.package], [], some e⟩
        | .ok package_success_fraction =>
          let tls := if expand && print_individual_targets then
              target_lines node package_to_target outcome_of expand
            else []
          let res := print_forest_loop (sortByKey PTree.package node.children ++ rest)
              package_to_target outcome_of print_individual_targets expand
          ⟨node.package :: res.visits,
            (packageLine node package_success_fraction :: tls) ++ res.lines, res.err⟩
      else
        let res := print_forest_loop rest package_to_target outcome_of
            print_individual_targets expand
        ⟨node.package :: res.visits, res.lines, res.err⟩
termination_by sizeList queue
decreasing_by
  · have happ : ∀ l₁ l₂ : List PTree, sizeList (l₁ ++ l₂) = sizeList l₁ + sizeList l₂ := by
      intro l₁ l₂
      induction l₁ with
      | nil => simp [sizeList]
      | cons t ts ih =>
        simp only [List.cons_append, sizeList, List.append_eq] at ih ⊢
        omega
    have hins : ∀ (x : PTree) (l : List PTree),
        sizeList (insertByKey PTree.package x l) = PTree.size x + sizeList l := by
      intro x l
      induction l with
      | nil => simp [insertByKey, sizeList]
      | cons y ys ih =>
        simp only [insertByKey]
        by_cases h : pyStrLt (PTree.package y) (PTree.package x) = true
        · simp only [h, if_true, sizeList, ih]; omega
        · simp only [h, if_false, Bool.false_eq_true, sizeList]
    have hsort : ∀ l : List PTree, sizeList (sortByKey PTree.package l) = sizeList l := by
      intro l
      induction l with
      | nil => rfl
      | cons x xs ih => simp only [sortByKey, hins, ih, sizeList]
    have hpos : ∀ t : PTree, sizeList (PTree.children t) < PTree.size t := by
      intro t
      cases t with
      | node p d cs a b c e => simp only [PTree.size, PTree.children]; omega
    simp only [sizeList, happ, hsort]
    exact Nat.add_lt_add_right (hpos _) _
  · have hpos : ∀ t : PTree, 0 < PTree.size t := by
      intro t
      cases t with
      | node p d cs a b c e => simp only [PTree.size]; omega
    simp only [sizeList]
    exact Nat.lt_add_of_pos_left (hpos _)

/-- `print_forest(r, ...)` called on one root. -/
def print_forest (r : PTree) (package_to_target : String → List String)
    (outcome_of : String → PyOutcome) (print_individual_targets expand : Bool) :
    ReportResult :=
  print_forest_loop [r] package_to_target outcome_of print_individual_targets expand

/-- One key of the `id` object of a build event record: the two kinds the
reader reacts to, carrying their label, and `other` for every ignored key. -/
inductive IdKey where
  | targetConfigured (label : String)
  | targetCompleted (label : String)
  | other
deriving DecidableEq

/-- The `completed` object of a record when present.  `successTrue` is the
conjunction the code tests (`"success" in completed and
completed["success"] == True`); `failureMessage` is
`completed["failureDetail"]["message"]` when a `failureDetail` object is
present (records whose `failureDetail` lacks `message` would raise a
`KeyError`, a case no claim exercises); `stringified` is
`str(bep_contents["completed"])`. -/
structure CompletedPayload where
  successTrue : Bool
  failureMessage : Option String
  stringified : String
deriving DecidableEq

/-- One parsed line of the BEP file: the keys of `bep_contents["id"]` in
order, whether an `"aborted"` key is present, the `"completed"` object if
present, and `str(bep_contents)` for the final fallback. -/
structure BepRecord where
  idKeys : List IdKey
  aborted : Bool
  completed : Option CompletedPayload
  stringified : String
deriving DecidableEq

/-- The body of the `for k in bep_contents["id"].keys()` loop of
`read_build_event_protocol` at one key. -/
def processIdKey (outcomes : List (String × PyOutcome)) (r : BepRecord) (k : IdKey) :
    Except String (List (String × PyOutcome)) :=
  match k with
  | .targetConfigured label => .ok (dictSet outcomes label PyOutcome.none)
  | .targetCompleted label =>
    if dictContains outcomes label then
      if r.aborted then .ok (dictSet outcomes label (PyOutcome.str "aborted"))
      else
        match r.completed with
        | some c =>
          if c.successTrue then .ok (dictSet outcomes label (PyOutcome.str "success"))
          else
            match c.failureMessage with
            | some msg => .ok (dictSet outcomes label (PyOutcome.str msg))
            | Option.none => .ok (dictSet outcomes label (PyOutcome.str c.stringified))
        | Option.none => .ok (dictSet outcomes label (PyOutcome.str r.stringified))
    else .error (notSeenMsg label)
  | .other => .ok outcomes

/-- Processing of one record: the loop over its `id` keys. -/
def processRecord (outcomes : List (String × PyOutcome)) (r : BepRecord) :
    Except String (List (String × PyOutcome)) :=
  r.idKeys.foldlM (fun o k => processIdKey o r k) outcomes

/-- `read_build_event_protocol`: one pass over the records starting from
the empty dict. -/
def read_build_event_protocol (records : List BepRecord) :
    Except String (List (String × PyOutcome)) :=
  records.foldlM processRecord []

/-- Lookup `outcome_of[t]` in the main flow, total-ized: every target the
main flow looks up is a key of the dict, so the default is never hit
there. -/
def outcome_lookup (m : List (String × PyOutcome)) (t : String) : PyOutcome :=
  (dictGet m t).getD PyOutcome.none

/-- `package_to_targets[p]` as built by main: the targets (in dict order)
whose parsed package equals `p`; `[]` on an absent key, as with
`defaultdict(list)`. -/
def package_to_targets_fn (labels : List String) (p : String) : List String :=
  labels.filter (fun l => get_package l == some p)

/-- `sorted(package_to_targets.keys())`: the distinct parsed packages in
ascending order.  (`dedup` keeps one occurrence per key; the pre-sort
order of the deduplicated list is irrelevant after sorting.) -/
def package_keys (labels : List String) : List String :=
  sortByKey id (labels.filterMap get_package).dedup

/-- `all_roots` of main. -/
def main_forest (m : List (String × PyOutcome)) : List PTree :=
  build_package_forest (package_keys (m.map Prod.fst))

/-- The roots after `compute_counts` ran on each of them. -/
def main_counted_forest (m : List (String × PyOutcome)) : List PTree :=
  (main_forest m).map
    (fun r => compute_counts r (package_to_targets_fn (m.map Prod.fst)) (outcome_lookup m))

/-- `sum(o == "success" for o in outcome_of.values())`. -/
def count_success_values (m : List (String × PyOutcome)) : Nat :=
  ((m.map Prod.snd).filter (fun o => o == PyOutcome.str "success")).length

/-- `overall_percentage = sum(...) / len(outcome_of) * 100` (Python raises
`ZeroDivisionError` on an empty dict). -/
def overall_percentage (m : List (String × PyOutcome)) : Except String ℚ :=
  (pyDiv (count_success_values m) m.length).map (fun q => q * 100)

/-- The final printed line `Overall build percent: <pct>%`. -/
def summary_line (m : List (String × PyOutcome)) : Except String String :=
  (overall_percentage m).map (fun p => "Overall build percent: " ++ format_two_dec p ++ "%")

/-- `print_individual_targets = len(package_to_targets.keys()) <= 1`. -/
def print_individual_targets_of (m : List (String × PyOutcome)) : Bool :=
  decide ((package_keys (m.map Prod.fst)).length ≤ 1)

/-- The per-root reports of the main printing loop
(`for r in sorted(all_roots, ...)`), in order. -/
def main_report (m : List (String × PyOutcome)) (expand : Bool) : List ReportResult :=
  (sortByKey PTree.package (main_counted_forest m)).map
    (fun r => print_forest r (package_to_targets_fn (m.map Prod.fst)) (outcome_lookup m)
      (print_individual_targets_of m) expand)

/-- `P` holds at every node of the tree. -/
inductive AllNodes (P : PTree → Prop) : PTree → Prop
  | mk (p : String) (d : Nat) (cs : List PTree) (a b c e : Nat) :
      P (.node p d cs a b c e) →
      (∀ t ∈ cs, AllNodes P t) →
      AllNodes P (.node p d cs a b c e)

/-- `s` is a node of the tree `t`: `t` itself, or a node of some child. -/
inductive SubtreeOf : PTree → PTree → Prop
  | refl (t : PTree) : SubtreeOf t t
  | step (s c t : PTree) : c ∈ PTree.children t → SubtreeOf s c → SubtreeOf s t

/-- `s` is a proper descendant of `t` (equivalently, `t` is a proper
ancestor of `s`). -/
def ProperDesc (s t : PTree) : Prop :=
  ∃ c ∈ PTree.children t, SubtreeOf s c

/-- Neither of two sibling packages is a string-prefix of the other. -/
def NoMutualPref (x y : PTree) : Prop :=
  pyStartswith x.package y.package = false ∧ pyStartswith y.package x.package = false

/-- The structural forest invariants of a tree hanging at level `lvl`:
the stored depth equals `lvl` (the length of the ancestor chain), every
child's package extends the node's package, no two siblings are in a
prefix relation, and the same holds recursively one level down. -/
inductive WellFormed : Nat → PTree → Prop
  | mk (lvl : Nat) (p : String) (cs : List PTree) (a b c e : Nat) :
      (∀ t ∈ cs, pyStartswith (PTree.package t) p = true) →
      List.Pairwise NoMutualPref cs →
      (∀ t ∈ cs, WellFormed (lvl + 1) t) →
      WellFormed lvl (.node p lvl cs a b c e)

/-! ## General helper lemmas -/

theorem size_pos (t : PTree) : 0 < PTree.size t := by
  cases t with
  | node p d cs a b c e => simp only [PTree.size]; omega

theorem size_le_of_mem {t : PTree} {cs : List PTree} (h : t ∈ cs) :
    PTree.size t ≤ sizeList cs := by
  induction cs with
  | nil => cases h
  | cons x xs ih =>
    rcases List.mem_cons.mp h with h | h
    · subst h; simp only [sizeList]; omega
    · have := ih h; simp only [sizeList]; omega

/-- Structural induction over `PTree` through the nested `List`. -/
theorem ptree_ind (P : PTree → Prop)
    (h : ∀ p d cs a b c e, (∀ t ∈ cs, P t) → P (PTree.node p d cs a b c e))
    (t : PTree) : P t := by
  have key : ∀ n (t : PTree), PTree.size t ≤ n → P t := by
    intro n
    induction n with
    | zero =>
      intro t ht
      have := size_pos t
      omega
    | succ n ih =>
      intro t ht
      cases t with
      | node p d cs a b c e =>
        apply h
        intro c hc
        apply ih
        have h1 := size_le_of_mem hc
        simp only [PTree.size] at ht
        omega
  exact key (PTree.size t) t le_rfl

/-! ## C8: package-key derivation -/

/-- Characterization of the embedded regex search: it yields `none` iff
there is no `:` at all or a newline occurs before the first `:`, and on
success the group is the prefix before the first `:`. -/
theorem getPackageChars_eq (l : List Char) :
    (getPackageChars l = Option.none ↔
      (':' ∉ l ∨ '\n' ∈ l.takeWhile (fun c => c ≠ ':'))) ∧
    (∀ g, getPackageChars l = some g → g = l.takeWhile (fun c => c ≠ ':')) := by
  induction l with
  | nil => simp [getPackageChars]
  | cons c rest ih =>
    by_cases hc : c = ':'
    · subst hc
      simp [getPackageChars, List.takeWhile]
    · by_cases hn : c = '\n'
      · subst hn
        simp [getPackageChars, List.takeWhile, hc]
      · constructor
        · simp only [getPackageChars, if_neg hc, if_neg hn, Option.map_eq_none',
            List.mem_cons, List.takeWhile]
          rw [ih.1]
          simp [hc, hn, List.takeWhile, eq_comm]
        · intro g hg
          simp only [getPackageChars, if_neg hc, if_neg hn, Option.map_eq_some'] at hg
          obtain ⟨g', hg', rfl⟩ := hg
          have := ih.2 g' hg'
          simp [List.takeWhile, hc, this]

/-- C8 counterexample: the claim says derivation fails iff the label has
no `:` at all; but the label below contains a `:`, yet `get_package`
fails on it (the regex `.` cannot cross the newline that precedes the
first `:`). -/
theorem c8_counterexample :
    get_package "a\nb:c" = Option.none ∧ ':' ∈ ("a\nb:c" : String).data := by
  constructor
  · rfl
  · decide

/-- C8 (amended): package-key derivation returns the substring preceding
the first `:`, and fails iff the label contains no `:` at all or a newline
occurs before the first `:`. -/
theorem c8_get_package_characterization (t : String) :
    (get_package t = Option.none ↔
      (':' ∉ t.data ∨ '\n' ∈ t.data.takeWhile (fun c => c ≠ ':'))) ∧
    (∀ p, get_package t = some p → p.data = t.data.takeWhile (fun c => c ≠ ':')) := by
  have h := getPackageChars_eq t.data
  constructor
  · rw [← h.1]
    simp [get_package]
  · intro p hp
    simp only [get_package, Option.map_eq_some'] at hp
    obtain ⟨g, hg, rfl⟩ := hp
    exact h.2 g hg

/-- C8 witness: the amended characterization applied to the concrete label
`ab:c`, whose package is `ab`. -/
theorem c8_witness :
    ("ab" : String).data = ("ab:c" : String).data.takeWhile (fun c => c ≠ ':') :=
  (c8_get_package_characterization "ab:c").2 "ab" (by rfl)

/-! ## Dictionary lemmas -/

theorem dictGet_cons (k₀ : String) (v₀ : PyOutcome) (rest : List (String × PyOutcome))
    (k : String) :
    dictGet ((k₀, v₀) :: rest) k = if k₀ = k then some v₀ else dictGet rest k := by
  by_cases h : k₀ = k
  · simp [dictGet, List.find?_cons, h]
  · simp [dictGet, List.find?_cons, h]

theorem dictGet_dictSet_self (m : List (String × PyOutcome)) (k : String) (v : PyOutcome) :
    dictGet (dictSet m k v) k = some v := by
  induction m with
  | nil => simp [dictSet, dictGet]
  | cons p rest ih =>
    obtain ⟨k', v'⟩ := p
    by_cases h : k' = k
    · subst h
      simp [dictSet, dictGet_cons]
    · simp only [dictSet, if_neg h]
      rw [dictGet_cons, if_neg h, ih]

theorem dictGet_dictSet_ne (m : List (String × PyOutcome)) (k k' : String) (v : PyOutcome)
    (h : k' ≠ k) : dictGet (dictSet m k v) k' = dictGet m k' := by
  induction m with
  | nil => simp [dictSet, dictGet, dictGet_cons, Ne.symm h]
  | cons p rest ih =>
    obtain ⟨k₀, v₀⟩ := p
    by_cases h0 : k₀ = k
    · subst h0
      have hset : dictSet ((k₀, v₀) :: rest) k₀ v = (k₀, v) :: rest := by
        simp [dictSet]
      rw [hset, dictGet_cons, dictGet_cons,
        if_neg (fun hh => h hh.symm), if_neg (fun hh => h hh.symm)]
    · have hset : dictSet ((k₀, v₀) :: rest) k v = (k₀, v₀) :: dictSet rest k v := by
        simp [dictSet, h0]
      rw [hset, dictGet_cons, dictGet_cons, ih]

/-! ## C3: a configured record overwrites -/

/-- C3 counterexample: the stream `configured L, completed(success) L,
configured L` leaves `L` with outcome pending (`None`), not with its
previously recorded `success` — a configured record for an
already-registered label does change its recorded outcome. -/
theorem c3_counterexample :
    read_build_event_protocol
      [⟨[IdKey.targetConfigured "//a:x"], false, Option.none, "r1"⟩,
       ⟨[IdKey.targetCompleted "//a:x"], false, some ⟨true, Option.none, "c"⟩, "r2"⟩,
       ⟨[IdKey.targetConfigured "//a:x"], false, Option.none, "r3"⟩] =
      .ok [("//a:x", PyOutcome.none)] ∧ PyOutcome.none ≠ PyOutcome.str "success" := by
  constructor
  · rfl
  · decide

/-- C3 (amended): a "target configured" record for label `L` always sets
the recorded outcome of `L` to pending (`None`), overwriting any previous
outcome; outcomes of other labels are unchanged. -/
theorem c3_configured_sets_pending (m : List (String × PyOutcome)) (r : BepRecord)
    (L : String) :
    ∃ m', processIdKey m r (IdKey.targetConfigured L) = .ok m' ∧
      dictGet m' L = some PyOutcome.none ∧
      ∀ L', L' ≠ L → dictGet m' L' = dictGet m L' :=
  ⟨dictSet m L PyOutcome.none, rfl, dictGet_dictSet_self m L PyOutcome.none,
    fun L' h => dictGet_dictSet_ne m L L' PyOutcome.none h⟩

/-- C3 witness: the amended claim at a dict with a completed label `b` and
a configured record for `a`. -/
theorem c3_witness :
    ∃ m', processIdKey [("b", PyOutcome.str "boom")] ⟨[], false, Option.none, ""⟩
      (IdKey.targetConfigured "a") = .ok m' ∧
      dictGet m' "a" = some PyOutcome.none ∧
      dictGet m' "b" = dictGet [("b", PyOutcome.str "boom")] "b" := by
  obtain ⟨m', h1, h2, h3⟩ := c3_configured_sets_pending [("b", PyOutcome.str "boom")]
    ⟨[], false, Option.none, ""⟩ "a"
  exact ⟨m', h1, h2, h3 "b" (by decide)⟩

/-! ## C7: completed before configured -/

/-- Processing a completed record for a registered label never errors. -/
theorem processIdKey_completed_registered (m : List (String × PyOutcome)) (r : BepRecord)
    (L : String) (h : dictContains m L = true) :
    ∃ m', processIdKey m r (IdKey.targetCompleted L) = .ok m' := by
  simp only [processIdKey, h, if_true]
  by_cases ha : r.aborted
  · refine ⟨dictSet m L (PyOutcome.str "aborted"), ?_⟩
    simp [ha]
  · simp only [ha, Bool.false_eq_true, if_false]
    match hc : r.completed with
    | Option.none => exact ⟨dictSet m L (PyOutcome.str r.stringified), rfl⟩
    | some c =>
      by_cases hs : c.successTrue
      · refine ⟨dictSet m L (PyOutcome.str "success"), ?_⟩
        simp [hs]
      · simp only [hs, Bool.false_eq_true, if_false]
        match hm : c.failureMessage with
        | Option.none => exact ⟨dictSet m L (PyOutcome.str c.stringified), rfl⟩
        | some msg => exact ⟨dictSet m L (PyOutcome.str msg), rfl⟩

/-- C7: in any event stream, a record whose `id` holds a `targetCompleted`
key for a label `L` not registered by the records before it makes the
whole extraction fail with the "not seen before" error, while the same
record on a state with `L` registered is processed without error. -/
theorem c7_completed_requires_configured (pre post : List BepRecord) (r : BepRecord)
    (L : String) (m : List (String × PyOutcome))
    (hkeys : r.idKeys = [IdKey.targetCompleted L])
    (hpre : read_build_event_protocol pre = .ok m) :
    (dictContains m L = false →
      read_build_event_protocol (pre ++ r :: post) = .error (notSeenMsg L)) ∧
    (dictContains m L = true → ∃ m', processRecord m r = .ok m') := by
  constructor
  · intro habs
    have hr : processRecord m r = .error (notSeenMsg L) := by
      simp [processRecord, hkeys, processIdKey, habs]
    simp only [read_build_event_protocol] at hpre ⊢
    rw [List.foldlM_append, hpre]
    show (List.foldlM processRecord m (r :: post)) = Except.error (notSeenMsg L)
    simp only [List.foldlM_cons, hr]
    rfl
  · intro hreg
    obtain ⟨m', hm'⟩ := processIdKey_completed_registered m r L hreg
    refine ⟨m', ?_⟩
    simp [processRecord, hkeys, hm']

/-- C7 witness: a lone completed record for a never-configured label fails
with the "not seen before" error. -/
theorem c7_witness :
    read_build_event_protocol
      ([] ++ (⟨[IdKey.targetCompleted "//a:x"], false, Option.none, "r"⟩ : BepRecord) :: []) =
      .error (notSeenMsg "//a:x") :=
  (c7_completed_requires_configured [] [] ⟨[IdKey.targetCompleted "//a:x"], false, Option.none, "r"⟩
    "//a:x" [] rfl rfl).1 rfl

/-! ## C10: empty outcome map -/

/-- A record with no `targetConfigured` key leaves the empty dict empty
(or fails on a completed key). -/
theorem processRecord_empty_of_no_configured (r : BepRecord)
    (h : ∀ L, IdKey.targetConfigured L ∉ r.idKeys) (m : List (String × PyOutcome))
    (hok : processRecord [] r = .ok m) : m = [] := by
  have key : ∀ (ks : List IdKey), (∀ L, IdKey.targetConfigured L ∉ ks) →
      ∀ m, List.foldlM (fun o k => processIdKey o r k) ([] : List (String × PyOutcome)) ks =
        .ok m → m = [] := by
    intro ks
    induction ks with
    | nil =>
      intro _ m hm
      simp only [List.foldlM_nil, pure, Except.pure] at hm
      exact (Except.ok.inj hm).symm
    | cons k rest ih =>
      intro hk m hm
      match k with
      | .targetConfigured L => exact absurd (List.mem_cons_self _ _) (hk L)
      | .targetCompleted L =>
        rw [List.foldlM_cons] at hm
        have h1 : processIdKey [] r (IdKey.targetCompleted L) = .error (notSeenMsg L) := by
          simp [processIdKey, dictContains]
        rw [h1, show ∀ f, (Except.error (notSeenMsg L) >>=
          (f : List (String × PyOutcome) → Except String (List (String × PyOutcome)))) =
          Except.error (notSeenMsg L) from fun f => rfl] at hm
        cases hm
      | .other =>
        rw [List.foldlM_cons] at hm
        exact ih (fun L hL => hk L (List.mem_cons_of_mem _ hL)) m hm
  exact key r.idKeys h m hok

/-- C10: when no record of the stream carries a `targetConfigured` key and
extraction succeeds, the outcome map is empty, the report loop prints
nothing, and the overall percentage computation fails with a
`ZeroDivisionError` (so no 0% summary line is ever printed). -/
theorem c10_empty_map_division_fails (records : List BepRecord)
    (m : List (String × PyOutcome))
    (hread : read_build_event_protocol records = .ok m)
    (hnoconf : ∀ r ∈ records, ∀ L, IdKey.targetConfigured L ∉ r.idKeys) :
    m = [] ∧
    (∀ expand, main_report m expand = []) ∧
    overall_percentage m = .error "ZeroDivisionError: division by zero" ∧
    summary_line m = .error "ZeroDivisionError: division by zero" := by
  have hm : m = [] := by
    have key : ∀ (rs : List BepRecord), (∀ r ∈ rs, ∀ L, IdKey.targetConfigured L ∉ r.idKeys) →
        ∀ m, List.foldlM processRecord ([] : List (String × PyOutcome)) rs = .ok m →
          m = [] := by
      intro rs
      induction rs with
      | nil =>
        intro _ m hm
        simp only [List.foldlM_nil, pure, Except.pure] at hm
        exact (Except.ok.inj hm).symm
      | cons r rest ih =>
        intro hr m hm
        rw [List.foldlM_cons] at hm
        match hpr : processRecord [] r with
        | .error e =>
          rw [hpr, show ∀ f, (Except.error e >>=
            (f : List (String × PyOutcome) → Except String (List (String × PyOutcome)))) =
            Except.error e from fun f => rfl] at hm
          cases hm
        | .ok m₁ =>
          have h1 : m₁ = [] :=
            processRecord_empty_of_no_configured r (hr r (List.mem_cons_self _ _)) m₁ hpr
          rw [hpr] at hm
          subst h1
          exact ih (fun r' hr' => hr r' (List.mem_cons_of_mem _ hr')) m hm
    exact key records hnoconf m hread
  subst hm
  refine ⟨rfl, ?_, ?_, ?_⟩
  · intro expand
    rfl
  · rfl
  · rfl

/-- C10 witness: a stream holding one ignored record produces the empty
map and the failing percentage computation. -/
theorem c10_witness :
    ([] : List (String × PyOutcome)) = [] ∧
    (∀ expand, main_report [] expand = []) ∧
    overall_percentage [] = .error "ZeroDivisionError: division by zero" ∧
    summary_line [] = .error "ZeroDivisionError: division by zero" :=
  c10_empty_map_division_fails [⟨[IdKey.other], false, Option.none, "x"⟩] [] rfl
    (by
      intro r hr L hL
      simp only [List.mem_singleton] at hr
      subst hr
      simp at hL)

/-! ## C6: aggregation invariants -/

theorem compute_counts_list_eq_map (cs : List PTree) (tfp : String → List String)
    (oc : String → PyOutcome) :
    compute_counts_list cs tfp oc = cs.map (fun c => compute_counts c tfp oc) := by
  induction cs with
  | nil => rfl
  | cons c rest ih => simp only [compute_counts_list, ih, List.map_cons]

theorem AllNodes.self {P : PTree → Prop} {t : PTree} (h : AllNodes P t) : P t := by
  cases h with
  | mk p d cs a b c e hp hcs => exact hp

theorem AllNodes.child {P : PTree → Prop} {t c : PTree} (h : AllNodes P t)
    (hc : c ∈ PTree.children t) : AllNodes P c := by
  cases h with
  | mk p d cs a b cc e hp hcs => exact hcs c hc

/-- C6: after aggregation every node's subtree counters decompose into the
direct counters plus the children's subtree counters, and subtree
successes never exceed subtree targets. -/
theorem c6_counts_decomposition (t : PTree) (tfp : String → List String)
    (oc : String → PyOutcome) :
    AllNodes (fun n =>
      n.subtree_num_targets =
        n.package_num_targets + (n.children.map PTree.subtree_num_targets).sum ∧
      n.subtree_num_successes =
        n.package_num_successes + (n.children.map PTree.subtree_num_successes).sum ∧
      n.subtree_num_successes ≤ n.subtree_num_targets)
      (compute_counts t tfp oc) := by
  refine ptree_ind (fun t => AllNodes _ (compute_counts t tfp oc)) ?_ t
  intro p d cs a b c e ih
  simp only [compute_counts, compute_counts_list_eq_map]
  refine AllNodes.mk _ _ _ _ _ _ _ ⟨?_, ?_, ?_⟩ ?_
  · simp only [PTree.subtree_num_targets, PTree.package_num_targets, PTree.children]
    omega
  · simp only [PTree.subtree_num_successes, PTree.package_num_successes, PTree.children]
    omega
  · simp only [PTree.subtree_num_successes, PTree.subtree_num_targets]
    have h1 : List.countP (fun t => oc t == PyOutcome.str "success") (tfp p) ≤
        (tfp p).length := List.countP_le_length _
    have h2 : ((cs.map (fun c => compute_counts c tfp oc)).map
          PTree.subtree_num_successes).sum ≤
        ((cs.map (fun c => compute_counts c tfp oc)).map PTree.subtree_num_targets).sum := by
      apply List.sum_le_sum
      intro x hx
      simp only [List.mem_map] at hx
      obtain ⟨c0, hc0, rfl⟩ := hx
      exact ((ih c0 hc0).self).2.2
    omega
  · intro x hx
    simp only [List.mem_map] at hx
    obtain ⟨c0, hc0, rfl⟩ := hx
    exact ih c0 hc0

/-! ## Sorting and size lemmas -/

theorem insertByKey_perm {α : Type} (key : α → String) (x : α) (l : List α) :
    List.Perm (insertByKey key x l) (x :: l) := by
  induction l with
  | nil => exact List.Perm.refl _
  | cons y ys ih =>
    simp only [insertByKey]
    by_cases h : pyStrLt (key y) (key x) = true
    · simp only [h, if_true]
      exact ((ih.cons y).trans (List.Perm.swap x y ys))
    · simp only [h, if_false]
      exact List.Perm.refl _

theorem sortByKey_perm {α : Type} (key : α → String) (l : List α) :
    List.Perm (sortByKey key l) l := by
  induction l with
  | nil => exact List.Perm.refl _
  | cons x xs ih =>
    exact (insertByKey_perm key x (sortByKey key xs)).trans (ih.cons x)

theorem sizeList_append (l₁ l₂ : List PTree) :
    sizeList (l₁ ++ l₂) = sizeList l₁ + sizeList l₂ := by
  induction l₁ with
  | nil => simp [sizeList]
  | cons t ts ih =>
    simp only [List.cons_append, sizeList, List.append_eq] at ih ⊢
    omega

theorem sizeList_eq_sum_map (l : List PTree) : sizeList l = (l.map PTree.size).sum := by
  induction l with
  | nil => rfl
  | cons t ts ih => simp [sizeList, ih]

theorem sizeList_perm {l₁ l₂ : List PTree} (h : List.Perm l₁ l₂) :
    sizeList l₁ = sizeList l₂ := by
  rw [sizeList_eq_sum_map, sizeList_eq_sum_map]
  exact (h.map PTree.size).sum_eq

theorem AllNodes.imp {P Q : PTree → Prop} (hPQ : ∀ n, P n → Q n) {t : PTree}
    (h : AllNodes P t) : AllNodes Q t := by
  refine ptree_ind (fun t => AllNodes P t → AllNodes Q t) ?_ t h
  intro p d cs a b c e ih hall
  cases hall with
  | mk _ _ _ _ _ _ _ hp hcs =>
    exact AllNodes.mk _ _ _ _ _ _ _ (hPQ _ hp) (fun x hx => ih x hx (hcs x hx))

/-! ## The report loop never divides by zero on positive counts -/

theorem print_forest_loop_err_none (ptt : String → List String) (oc : String → PyOutcome)
    (pit expand : Bool) :
    ∀ (n : Nat) (queue : List PTree), sizeList queue ≤ n →
      (∀ t ∈ queue,
        AllNodes (fun x => 0 < x.subtree_num_targets ∧ 0 < x.package_num_targets) t) →
      (print_forest_loop queue ptt oc pit expand).err = Option.none := by
  intro n
  induction n with
  | zero =>
    intro queue hq hall
    match queue with
    | [] => rw [print_forest_loop]
    | t :: rest =>
      have := size_pos t
      simp only [sizeList] at hq
      omega
  | succ n ih =>
    intro queue hq hall
    match queue with
    | [] => rw [print_forest_loop]
    | node :: rest =>
      have hgood := (hall node (List.mem_cons_self _ _)).self
      have hsnt : ((node.subtree_num_targets : ℚ)) ≠ 0 := by
        exact_mod_cast Nat.pos_iff_ne_zero.mp hgood.1
      have hpnt : ((node.package_num_targets : ℚ)) ≠ 0 := by
        exact_mod_cast Nat.pos_iff_ne_zero.mp hgood.2
      have hd1 : pyDiv node.subtree_num_successes node.subtree_num_targets =
          .ok ((node.subtree_num_successes : ℚ) / node.subtree_num_targets) := by
        simp [pyDiv, hsnt]
      have hd2 : pyDiv node.package_num_successes node.package_num_targets =
          .ok ((node.package_num_successes : ℚ) / node.package_num_targets) := by
        simp [pyDiv, hpnt]
      have hsz : sizeList (sortByKey PTree.package node.children ++ rest) ≤ n := by
        rw [sizeList_append, sizeList_perm (sortByKey_perm PTree.package node.children)]
        have h1 : sizeList (PTree.children node) < PTree.size node := by
          cases node with
          | node p d cs a b c e => simp only [PTree.size, PTree.children]; omega
        simp only [sizeList] at hq
        omega
      have hszr : sizeList rest ≤ n := by
        have := size_pos node
        simp only [sizeList] at hq
        omega
      have hallq : ∀ t ∈ sortByKey PTree.package node.children ++ rest,
          AllNodes (fun x => 0 < x.subtree_num_targets ∧ 0 < x.package_num_targets) t := by
        intro t ht
        rcases List.mem_append.mp ht with h | h
        · exact (hall node (List.mem_cons_self _ _)).child
            ((sortByKey_perm PTree.package node.children).mem_iff.mp h)
        · exact hall t (List.mem_cons_of_mem _ h)
      have hallr : ∀ t ∈ rest,
          AllNodes (fun x => 0 < x.subtree_num_targets ∧ 0 < x.package_num_targets) t :=
        fun t ht => hall t (List.mem_cons_of_mem _ ht)
      rw [print_forest_loop]
      rw [hd1]
      by_cases hcond : ((node.subtree_num_successes : ℚ) / node.subtree_num_targets < 1 ∨
          expand = true)
      · simp only [if_pos hcond, hd2]
        exact ih _ hsz hallq
      · simp only [if_neg hcond]
        exact ih _ hszr hallr

/-! ## C9: positive counts, no division by zero -/

theorem mem_packagesList {q : String} {c : PTree} {cs : List PTree} (hc : c ∈ cs)
    (hq : q ∈ PTree.packages c) : q ∈ packagesList cs := by
  induction cs with
  | nil => cases hc
  | cons x xs ih =>
    rcases List.mem_cons.mp hc with h | h
    · subst h
      simp only [packagesList, List.mem_append]
      exact Or.inl hq
    · simp only [packagesList, List.mem_append]
      exact Or.inr (ih h)

/-- C9: if every package key appearing in the forest owns at least one
target, then after aggregation every node's direct target count is
positive, the subtree counts dominate the direct counts, and the report
loop completes with no `ZeroDivisionError`. -/
theorem c9_positive_counts_no_divzero (t : PTree) (tfp : String → List String)
    (oc : String → PyOutcome) (pit expand : Bool)
    (hmin : ∀ q ∈ PTree.packages t, 1 ≤ (tfp q).length) :
    AllNodes (fun n =>
      1 ≤ n.package_num_targets ∧
      n.package_num_targets ≤ n.subtree_num_targets ∧
      n.package_num_successes ≤ n.subtree_num_successes) (compute_counts t tfp oc) ∧
    (print_forest (compute_counts t tfp oc) tfp oc pit expand).err = Option.none := by
  have part1 : AllNodes (fun n =>
      1 ≤ n.package_num_targets ∧
      n.package_num_targets ≤ n.subtree_num_targets ∧
      n.package_num_successes ≤ n.subtree_num_successes) (compute_counts t tfp oc) := by
    refine ptree_ind (fun t => (∀ q ∈ PTree.packages t, 1 ≤ (tfp q).length) →
      AllNodes _ (compute_counts t tfp oc)) ?_ t hmin
    intro p d cs a b c e ih hmin'
    simp only [compute_counts, compute_counts_list_eq_map]
    refine AllNodes.mk _ _ _ _ _ _ _ ⟨?_, ?_, ?_⟩ ?_
    · simp only [PTree.package_num_targets]
      exact hmin' p (by simp [PTree.packages])
    · simp only [PTree.package_num_targets, PTree.subtree_num_targets]
      omega
    · simp only [PTree.package_num_successes, PTree.subtree_num_successes]
      omega
    · intro x hx
      simp only [List.mem_map] at hx
      obtain ⟨c0, hc0, rfl⟩ := hx
      refine ih c0 hc0 ?_
      intro q hq
      refine hmin' q ?_
      simp only [PTree.packages, List.mem_cons]
      exact Or.inr (mem_packagesList hc0 hq)
  refine ⟨part1, ?_⟩
  have good : AllNodes (fun x => 0 < x.subtree_num_targets ∧ 0 < x.package_num_targets)
      (compute_counts t tfp oc) :=
    part1.imp (fun n hn => ⟨by omega, by omega⟩)
  refine print_forest_loop_err_none tfp oc pit expand
    (sizeList [compute_counts t tfp oc]) _ le_rfl ?_
  intro x hx
  rcases List.mem_singleton.mp hx with rfl
  exact good

/-- C9 witness: a one-node forest whose package owns one target. -/
theorem c9_witness :
    AllNodes (fun n =>
      1 ≤ n.package_num_targets ∧
      n.package_num_targets ≤ n.subtree_num_targets ∧
      n.package_num_successes ≤ n.subtree_num_successes)
      (compute_counts (mkNode "//a" 0) (fun _ => ["//a:x"]) (fun _ => PyOutcome.none)) ∧
    (print_forest (compute_counts (mkNode "//a" 0) (fun _ => ["//a:x"])
      (fun _ => PyOutcome.none)) (fun _ => ["//a:x"]) (fun _ => PyOutcome.none)
      true false).err = Option.none :=
  c9_positive_counts_no_divzero (mkNode "//a" 0) (fun _ => ["//a:x"])
    (fun _ => PyOutcome.none) true false (by intro q hq; simp)

/-! ## C2: fully successful nodes are skipped, children not traversed -/

/-- C2 counterexample: a fully successful root `//a` with a fully
successful child `//a/b`, printed with `expand = false`.  The loop pops
only the root: no line is printed and the child `//a/b` is never visited,
contradicting the claim that the children of a skipped node are still
traversed. -/
theorem c2_counterexample :
    print_forest (PTree.node "//a" 0 [PTree.node "//a/b" 1 [] 1 1 1 1] 1 1 2 2)
      (fun _ => []) (fun _ => PyOutcome.none) false false =
      ⟨["//a"], [], Option.none⟩ ∧
    ("//a/b" : String) ∉ (["//a"] : List String) := by
  constructor
  · rw [print_forest, print_forest_loop]
    have h22 : pyDiv (((2:Nat) : ℚ)) (((2:Nat) : ℚ)) = .ok 1 := by
      rw [pyDiv, if_neg (by norm_num)]
      norm_num
    simp only [PTree.subtree_num_successes, PTree.subtree_num_targets, h22]
    rw [if_neg (by norm_num)]
    rw [print_forest_loop]
    rfl
  · decide

/-- C2 (amended): a node whose subtree is fully successful is, when
`expand` is false, skipped entirely: no line is printed for it and its
children are not enqueued, the loop resuming with the remaining queue
(no output is lost, since every descendant of a fully successful node is
itself fully successful); when `expand` is true the node's line is
printed. -/
theorem c2_full_subtree_skipped (node : PTree) (rest : List PTree)
    (ptt : String → List String) (oc : String → PyOutcome) (pit : Bool)
    (hsnt : 0 < node.subtree_num_targets)
    (hfull : node.subtree_num_successes = node.subtree_num_targets) :
    (print_forest_loop (node :: rest) ptt oc pit false =
      ⟨node.package :: (print_forest_loop rest ptt oc pit false).visits,
        (print_forest_loop rest ptt oc pit false).lines,
        (print_forest_loop rest ptt oc pit false).err⟩) ∧
    (0 < node.package_num_targets →
      ∃ restLines, (print_forest_loop (node :: rest) ptt oc pit true).lines =
        packageLine node
          ((node.package_num_successes : ℚ) / node.package_num_targets) :: restLines) := by
  have hne : ((node.subtree_num_targets : ℚ)) ≠ 0 := by
    exact_mod_cast Nat.pos_iff_ne_zero.mp hsnt
  have hd1 : pyDiv node.subtree_num_successes node.subtree_num_targets = .ok 1 := by
    rw [pyDiv, if_neg hne, hfull, div_self hne]
  constructor
  · have hnot : ¬((1:ℚ) < 1 ∨ false = true) := by simp
    rw [print_forest_loop]
    simp only [hd1]
    rw [if_neg hnot]
  · intro hpnt
    have hpne : ((node.package_num_targets : ℚ)) ≠ 0 := by
      exact_mod_cast Nat.pos_iff_ne_zero.mp hpnt
    have hd2 : pyDiv node.package_num_successes node.package_num_targets =
        .ok ((node.package_num_successes : ℚ) / node.package_num_targets) := by
      rw [pyDiv, if_neg hpne]
    rw [print_forest_loop]
    simp only [hd1]
    rw [if_pos (Or.inr trivial)]
    simp only [hd2]
    exact ⟨_, rfl⟩

/-- C2 witness: the amended claim at a concrete fully successful
single-node queue. -/
theorem c2_witness :
    (print_forest_loop [PTree.node "//c" 0 [] 1 1 2 2]
        (fun _ => []) (fun _ => PyOutcome.none) false false =
      ⟨"//c" :: (print_forest_loop [] (fun _ => ([] : List String))
          (fun _ => PyOutcome.none) false false).visits,
        (print_forest_loop [] (fun _ => ([] : List String))
          (fun _ => PyOutcome.none) false false).lines,
        (print_forest_loop [] (fun _ => ([] : List String))
          (fun _ => PyOutcome.none) false false).err⟩) ∧
    (∃ restLines, (print_forest_loop [PTree.node "//c" 0 [] 1 1 2 2]
        (fun _ => []) (fun _ => PyOutcome.none) false true).lines =
      packageLine (PTree.node "//c" 0 [] 1 1 2 2) (((1:Nat) : ℚ) / ((1:Nat) : ℚ)) :: restLines) := by
  have h := c2_full_subtree_skipped (PTree.node "//c" 0 [] 1 1 2 2) []
    (fun _ => []) (fun _ => PyOutcome.none) false (by decide) (by decide)
  exact ⟨h.1, h.2 (by decide)⟩

/-! ## C1: single-package mode prints no target lines without expand -/

/-- C1: the full pipeline at the single package `//a` with targets
`//a:x` (success) and `//a:y` (failure "boom"), `expand = false`.  The
report holds exactly the package line: no per-target line is printed at
all — in particular the failing target `//a:y` is not listed, although
the claim requires it regardless of `expand` (the source gates the target
loop behind `expand and print_individual_targets`). -/
theorem c1_single_package_no_target_lines :
    main_report [("//a:x", PyOutcome.str "success"), ("//a:y", PyOutcome.str "boom")] false =
      [⟨["//a"], ["├Package //a:all build percentage: 50.0% (1/2)"], Option.none⟩] ∧
    targetLine 0 "//a:y" (PyOutcome.str "boom") = " ├Target //a:y : boom" ∧
    (" ├Target //a:y : boom" : String) ∉
      (["├Package //a:all build percentage: 50.0% (1/2)"] : List String) := by
  refine ⟨?_, by rfl, by decide⟩
  have hcount : main_counted_forest
      [("//a:x", PyOutcome.str "success"), ("//a:y", PyOutcome.str "boom")] =
      [PTree.node "//a" 0 [] 1 2 1 2] := by rfl
  have hpit : print_individual_targets_of
      [("//a:x", PyOutcome.str "success"), ("//a:y", PyOutcome.str "boom")] = true := by rfl
  rw [main_report, hcount, hpit]
  show [print_forest (PTree.node "//a" 0 [] 1 2 1 2) _ _ true false] = _
  have hd : pyDiv (((1:Nat)):ℚ) (((2:Nat)):ℚ) = .ok ((((1:Nat)):ℚ) / ((2:Nat):ℚ)) := by
    rw [pyDiv, if_neg (by norm_num)]
  have hfmt : format_one_pct ((((1:Nat)):ℚ) / ((2:Nat):ℚ)) = "50.0%" := by
    have hr : round (((((1:Nat)):ℚ) / ((2:Nat):ℚ)) * 1000) = 500 := by
      push_cast
      norm_num [round_eq]
    simp only [format_one_pct, hr]
    rfl
  have hline : packageLine (PTree.node "//a" 0 [] 1 2 1 2)
      ((((1:Nat)):ℚ) / ((2:Nat):ℚ)) =
      "├Package //a:all build percentage: 50.0% (1/2)" := by
    simp only [packageLine, hfmt]
    rfl
  rw [print_forest, print_forest_loop]
  simp only [PTree.subtree_num_successes, PTree.subtree_num_targets,
    PTree.package_num_successes, PTree.package_num_targets, hd]
  rw [if_pos (Or.inl (by norm_num))]
  rw [show sortByKey PTree.package (PTree.node "//a" 0 [] 1 2 1 2).children ++ ([] : List PTree) =
    ([] : List PTree) from rfl]
  rw [print_forest_loop]
  simp only [hline]
  rfl

/-! ## String order lemmas -/

theorem pyStrLt_iff (a b : String) : pyStrLt a b = true ↔ a < b := by
  rw [pyStrLt, decide_eq_true_eq, String.lt_iff_toList_lt]
  exact Iff.rfl

theorem chars_prefix_lt : ∀ (l₁ l₂ : List Char), l₁.isPrefixOf l₂ = true → l₁ ≠ l₂ → l₁ < l₂
  | [], [] => by intro _ h; exact absurd rfl h
  | [], b :: bs => by intro _ _; exact List.Lex.nil
  | a :: as, [] => by intro h _; simp [List.isPrefixOf] at h
  | a :: as, b :: bs => by
    intro h hne
    simp only [List.isPrefixOf, Bool.and_eq_true, beq_iff_eq] at h
    obtain ⟨rfl, h2⟩ := h
    exact List.Lex.cons (chars_prefix_lt as bs h2 (fun hh => hne (by rw [hh])))

/-- A strict string-prefix is lexicographically smaller. -/
theorem startswith_strict_lt (a b : String) (h : pyStartswith b a = true) (hne : a ≠ b) :
    a < b := by
  rw [String.lt_iff_toList_lt]
  exact chars_prefix_lt a.data b.data h
    (fun hh => hne (String.toList_inj.mp hh))

/-- A package smaller than `k` neither equals `k` nor has `k` as a prefix. -/
theorem not_startswith_of_lt (q k : String) (hq : q < k) :
    pyStartswith q k = false := by
  by_contra hc
  rw [Bool.not_eq_false] at hc
  by_cases he : k = q
  · subst he
    exact lt_irrefl k hq
  · exact absurd hq (lt_asymm (startswith_strict_lt k q hc he))

/-! ## Structural lemmas about insertion -/

theorem insert_tree_root_package (t n : PTree) :
    (insert_node_into_tree t n).package = t.package := by
  cases t with
  | node p d cs a b c e =>
    rw [insert_node_into_tree]
    cases insertChild cs n with
    | none => rfl
    | some cs' => rfl

theorem insert_tree_root_depth (t n : PTree) :
    (insert_node_into_tree t n).depth = t.depth := by
  cases t with
  | node p d cs a b c e =>
    rw [insert_node_into_tree]
    cases insertChild cs n with
    | none => rfl
    | some cs' => rfl

theorem insertChild_none : ∀ (cs : List PTree) (n : PTree),
    insertChild cs n = Option.none → ∀ c ∈ cs, pyStartswith n.package c.package = false := by
  intro cs n h c hc
  induction cs with
  | nil => cases hc
  | cons x rest ih =>
    rw [insertChild] at h
    by_cases hp : pyStartswith n.package x.package = true
    · rw [if_pos hp] at h
      cases h
    · rw [if_neg hp] at h
      rcases List.mem_cons.mp hc with rfl | hc'
      · exact Bool.not_eq_true _ ▸ (by simpa using hp)
      · cases hrec : insertChild rest n with
        | none => exact ih hrec hc'
        | some rest' => rw [hrec] at h; cases h

theorem insertChild_spec : ∀ (cs : List PTree) (n : PTree) (cs' : List PTree),
    insertChild cs n = some cs' →
    ∃ pre c post, cs = pre ++ c :: post ∧
      cs' = pre ++ insert_node_into_tree c n :: post ∧
      pyStartswith n.package c.package = true := by
  intro cs
  induction cs with
  | nil => intro n cs' h; rw [insertChild] at h; cases h
  | cons x rest ih =>
    intro n cs' h
    rw [insertChild] at h
    by_cases hp : pyStartswith n.package x.package = true
    · rw [if_pos hp] at h
      refine ⟨[], x, rest, rfl, ?_, hp⟩
      simpa using (Option.some.inj h).symm
    · rw [if_neg hp] at h
      cases hrec : insertChild rest n with
      | none => rw [hrec] at h; cases h
      | some rest' =>
        rw [hrec] at h
        obtain ⟨pre, c, post, h1, h2, h3⟩ := ih n rest' hrec
        refine ⟨x :: pre, c, post, by rw [h1]; rfl, ?_, h3⟩
        rw [← Option.some.inj h, h2]
        rfl

theorem insert_forest_spec : ∀ (roots : List PTree) (n : PTree),
    (∃ pre r post, roots = pre ++ r :: post ∧
      insert_node_into_forest roots n = pre ++ insert_node_into_tree r n :: post ∧
      pyStartswith n.package r.package = true) ∨
    (insert_node_into_forest roots n = roots ++ [n.withDepth 0] ∧
      ∀ r ∈ roots, pyStartswith n.package r.package = false) := by
  intro roots n
  induction roots with
  | nil =>
    right
    exact ⟨rfl, by intro r hr; cases hr⟩
  | cons x rest ih =>
    by_cases hp : pyStartswith n.package x.package = true
    · left
      refine ⟨[], x, rest, rfl, ?_, hp⟩
      rw [insert_node_into_forest, if_pos hp]
      rfl
    · rcases ih with ⟨pre, r, post, h1, h2, h3⟩ | ⟨h1, h2⟩
      · left
        refine ⟨x :: pre, r, post, by rw [h1]; rfl, ?_, h3⟩
        rw [insert_node_into_forest, if_neg hp, h2]
        rfl
      · right
        constructor
        · rw [insert_node_into_forest, if_neg hp, h1]
          rfl
        · intro r hr
          rcases List.mem_cons.mp hr with rfl | hr'
          · simpa using hp
          · exact h2 r hr'

theorem packagesList_append (l₁ l₂ : List PTree) :
    packagesList (l₁ ++ l₂) = packagesList l₁ ++ packagesList l₂ := by
  induction l₁ with
  | nil => simp [packagesList]
  | cons t ts ih =>
    simp only [List.cons_append, packagesList, List.append_eq] at ih ⊢
    rw [ih, List.append_assoc]

theorem children_sizeList_lt (t : PTree) : sizeList (PTree.children t) < PTree.size t := by
  cases t with
  | node p d cs a b cc e =>
    simp only [PTree.children, PTree.size]
    omega

theorem subtreeOf_size_le {s t : PTree} (h : SubtreeOf s t) : PTree.size s ≤ PTree.size t := by
  induction h with
  | refl => exact le_rfl
  | step s c hc hsub ih =>
    exact ih.trans ((size_le_of_mem hc).trans (le_of_lt (children_sizeList_lt _)))

theorem properDesc_irrefl (s : PTree) : ¬ ProperDesc s s := by
  rintro ⟨c, hc, hsub⟩
  have h1 : PTree.size s ≤ PTree.size c := subtreeOf_size_le hsub
  have h2 : PTree.size c ≤ sizeList (PTree.children s) := size_le_of_mem hc
  have h3 : sizeList (PTree.children s) < PTree.size s := by
    cases s with
    | node p d cs a b cc e =>
      simp only [PTree.children, PTree.size]
      omega
  omega

/-! ## Packages are preserved (plus the new key) by insertion -/

theorem insert_tree_packages : ∀ (n : Nat) (t : PTree), PTree.size t ≤ n → ∀ (k : String),
    List.Perm (PTree.packages (insert_node_into_tree t (mkNode k 0)))
      (k :: PTree.packages t) := by
  intro n
  induction n with
  | zero =>
    intro t ht
    have := size_pos t
    omega
  | succ n ih =>
    intro t ht k
    cases t with
    | node p d cs a b c e =>
      rw [insert_node_into_tree]
      cases hic : insertChild cs (mkNode k 0) with
      | none =>
        simp only [PTree.packages, packagesList_append]
        have hleaf : packagesList [PTree.withDepth (mkNode k 0) (d + 1)] = [k] := rfl
        rw [hleaf]
        refine List.Perm.trans (List.Perm.cons p (List.perm_append_singleton k _)) ?_
        exact List.Perm.swap k p _
      | some cs' =>
        obtain ⟨pre, c0, post, h1, h2, h3⟩ := insertChild_spec cs (mkNode k 0) cs' hic
        subst h1
        subst h2
        simp only [PTree.packages, packagesList_append, packagesList]
        have hc0 : PTree.size c0 ≤ n := by
          have h4 : PTree.size c0 ≤ sizeList (pre ++ c0 :: post) :=
            size_le_of_mem (by simp)
          have h5 : PTree.size (PTree.node p d (pre ++ c0 :: post) a b c e) =
              1 + sizeList (pre ++ c0 :: post) := rfl
          omega
        have hperm := ih c0 hc0 k
        have hstep : List.Perm
            (packagesList pre ++ (PTree.packages (insert_node_into_tree c0 (mkNode k 0)) ++
              packagesList post))
            (k :: (packagesList pre ++ (PTree.packages c0 ++ packagesList post))) := by
          refine List.Perm.trans
            (List.Perm.append_left _ (List.Perm.append_right _ hperm)) ?_
          exact List.perm_middle
        exact List.Perm.trans (List.Perm.cons p hstep) (List.Perm.swap k p _)

theorem insert_forest_packages (roots : List PTree) (k : String) :
    List.Perm (packagesList (insert_node_into_forest roots (mkNode k 0)))
      (k :: packagesList roots) := by
  rcases insert_forest_spec roots (mkNode k 0) with ⟨pre, r, post, h1, h2, h3⟩ | ⟨h1, h2⟩
  · subst h1
    rw [h2, packagesList_append, packagesList_append, packagesList, packagesList]
    have hperm := insert_tree_packages (PTree.size r) r le_rfl k
    refine List.Perm.trans
      (List.Perm.append_left _ (List.Perm.append_right _ hperm)) ?_
    exact List.perm_middle
  · rw [h1, packagesList_append]
    have hleaf : packagesList [PTree.withDepth (mkNode k 0) 0] = [k] := rfl
    rw [hleaf]
    exact List.perm_append_singleton k _

/-! ## Insertion preserves the forest invariants -/

theorem self_mem_packages (t : PTree) : t.package ∈ t.packages := by
  cases t with
  | node p d cs a b c e => simp [PTree.packages, PTree.package]

theorem pairwise_replace {R : PTree → PTree → Prop} (pre post : List PTree) (c c' : PTree)
    (hR1 : ∀ x, R x c → R x c') (hR2 : ∀ x, R c x → R c' x)
    (h : List.Pairwise R (pre ++ c :: post)) : List.Pairwise R (pre ++ c' :: post) := by
  induction pre with
  | nil =>
    simp only [List.nil_append, List.pairwise_cons] at h ⊢
    exact ⟨fun x hx => hR2 x (h.1 x hx), h.2⟩
  | cons y ys ih =>
    simp only [List.cons_append, List.pairwise_cons] at h ⊢
    refine ⟨?_, ih h.2⟩
    intro x hx
    rcases List.mem_append.mp hx with hx' | hx'
    · exact h.1 x (by simp [hx'])
    · rcases List.mem_cons.mp hx' with rfl | hx''
      · exact hR1 y (h.1 c (by simp))
      · exact h.1 x (by simp [hx''])

/-- `NoMutualPref` only depends on the root packages. -/
theorem noMutualPref_congr {x y y' : PTree} (hp : PTree.package y' = PTree.package y)
    (h : NoMutualPref x y) : NoMutualPref x y' := by
  rw [NoMutualPref, hp]
  exact h

theorem noMutualPref_congr_left {x y x' : PTree} (hp : PTree.package x' = PTree.package x)
    (h : NoMutualPref x y) : NoMutualPref x' y := by
  rw [NoMutualPref, hp]
  exact h

theorem insert_tree_wf : ∀ (n : Nat) (t : PTree), PTree.size t ≤ n → ∀ (k : String) (lvl : Nat),
    WellFormed lvl t →
    pyStartswith k (PTree.package t) = true →
    (∀ q ∈ PTree.packages t, q < k) →
    WellFormed lvl (insert_node_into_tree t (mkNode k 0)) := by
  intro n
  induction n with
  | zero =>
    intro t ht
    have := size_pos t
    omega
  | succ n ih =>
    intro t ht k lvl hwf hpre hlt
    cases hwf with
    | mk lvl p cs a b c e hchild hsib hrec =>
      simp only [PTree.package] at hpre
      simp only [PTree.packages] at hlt
      rw [insert_node_into_tree]
      cases hic : insertChild cs (mkNode k 0) with
      | none =>
        refine WellFormed.mk lvl p _ a b c e ?_ ?_ ?_
        · intro x hx
          rcases List.mem_append.mp hx with hx' | hx'
          · exact hchild x hx'
          · rcases List.mem_singleton.mp hx' with rfl
            exact hpre
        · rw [List.pairwise_append]
          refine ⟨hsib, List.pairwise_singleton _ _, ?_⟩
          intro x hx y hy
          rcases List.mem_singleton.mp hy with rfl
          constructor
          · show pyStartswith x.package k = false
            exact not_startswith_of_lt x.package k
              (hlt x.package (List.mem_cons_of_mem _
                (mem_packagesList hx (self_mem_packages x))))
          · show pyStartswith k x.package = false
            exact insertChild_none cs (mkNode k 0) hic x hx
        · intro x hx
          rcases List.mem_append.mp hx with hx' | hx'
          · exact hrec x hx'
          · rcases List.mem_singleton.mp hx' with rfl
            exact WellFormed.mk (lvl + 1) k [] 0 0 0 0
              (by intro y hy; cases hy) (List.Pairwise.nil) (by intro y hy; cases hy)
      | some cs' =>
        obtain ⟨pre, c0, post, h1, h2, h3⟩ := insertChild_spec cs (mkNode k 0) cs' hic
        subst h1
        subst h2
        have hc0mem : c0 ∈ pre ++ c0 :: post := by simp
        have hc0sz : PTree.size c0 ≤ n := by
          have h4 : PTree.size c0 ≤ sizeList (pre ++ c0 :: post) := size_le_of_mem hc0mem
          have h5 : PTree.size (PTree.node p lvl (pre ++ c0 :: post) a b c e) =
              1 + sizeList (pre ++ c0 :: post) := rfl
          omega
        have hrootpkg : (insert_node_into_tree c0 (mkNode k 0)).package = c0.package :=
          insert_tree_root_package c0 (mkNode k 0)
        refine WellFormed.mk lvl p _ a b c e ?_ ?_ ?_
        · intro x hx
          rcases List.mem_append.mp hx with hx' | hx'
          · exact hchild x (by simp [hx'])
          · rcases List.mem_cons.mp hx' with rfl | hx''
            · rw [hrootpkg]
              exact hchild c0 hc0mem
            · exact hchild x (by simp [hx''])
        · exact pairwise_replace pre post c0 _
            (fun x hx => noMutualPref_congr hrootpkg hx)
            (fun x hx => noMutualPref_congr_left hrootpkg hx) hsib
        · intro x hx
          rcases List.mem_append.mp hx with hx' | hx'
          · exact hrec x (by simp [hx'])
          · rcases List.mem_cons.mp hx' with rfl | hx''
            · refine ih c0 hc0sz k (lvl + 1) (hrec c0 hc0mem) h3 ?_
              intro q hq
              exact hlt q (List.mem_cons_of_mem _ (mem_packagesList hc0mem hq))
            · exact hrec x (by simp [hx''])

theorem insert_forest_wf (roots : List PTree) (k : String)
    (hwf : ∀ r ∈ roots, WellFormed 0 r)
    (hpair : List.Pairwise NoMutualPref roots)
    (hlt : ∀ q ∈ packagesList roots, q < k) :
    (∀ r ∈ insert_node_into_forest roots (mkNode k 0), WellFormed 0 r) ∧
    List.Pairwise NoMutualPref (insert_node_into_forest roots (mkNode k 0)) := by
  rcases insert_forest_spec roots (mkNode k 0) with ⟨pre, r, post, h1, h2, h3⟩ | ⟨h1, h2⟩
  · subst h1
    rw [h2]
    have hrootpkg : (insert_node_into_tree r (mkNode k 0)).package = r.package :=
      insert_tree_root_package r (mkNode k 0)
    have hrmem : r ∈ pre ++ r :: post := by simp
    constructor
    · intro x hx
      rcases List.mem_append.mp hx with hx' | hx'
      · exact hwf x (by simp [hx'])
      · rcases List.mem_cons.mp hx' with rfl | hx''
        · refine insert_tree_wf (PTree.size r) r le_rfl k 0 (hwf r hrmem) h3 ?_
          intro q hq
          exact hlt q (mem_packagesList hrmem hq)
        · exact hwf x (by simp [hx''])
    · exact pairwise_replace pre post r _
        (fun x hx => noMutualPref_congr hrootpkg hx)
        (fun x hx => noMutualPref_congr_left hrootpkg hx) hpair
  · rw [h1]
    constructor
    · intro x hx
      rcases List.mem_append.mp hx with hx' | hx'
      · exact hwf x hx'
      · rcases List.mem_singleton.mp hx' with rfl
        exact WellFormed.mk 0 k [] 0 0 0 0
          (by intro y hy; cases hy) (List.Pairwise.nil) (by intro y hy; cases hy)
    · rw [List.pairwise_append]
      refine ⟨hpair, List.pairwise_singleton _ _, ?_⟩
      intro x hx y hy
      rcases List.mem_singleton.mp hy with rfl
      constructor
      · show pyStartswith x.package k = false
        exact not_startswith_of_lt x.package k
          (hlt x.package (mem_packagesList hx (self_mem_packages x)))
      · show pyStartswith k x.package = false
        exact h2 x hx

/-! ## The built forest is valid -/

theorem build_forest_fold_packages : ∀ (keys : List String) (acc : List PTree),
    List.Perm (packagesList (List.foldl
      (fun result package => insert_node_into_forest result (mkNode package 0)) acc keys))
      (keys ++ packagesList acc) := by
  intro keys
  induction keys with
  | nil => intro acc; simp
  | cons k ks ih =>
    intro acc
    rw [List.foldl_cons]
    refine (ih (insert_node_into_forest acc (mkNode k 0))).trans ?_
    refine (List.Perm.append_left ks (insert_forest_packages acc k)).trans ?_
    exact List.perm_middle

/-- The multiset of packages of the built forest is exactly the input key
list (one node per key). -/
theorem build_forest_packages (keys : List String) :
    List.Perm (packagesList (build_package_forest keys)) keys := by
  have h := build_forest_fold_packages keys []
  simpa [build_package_forest, packagesList] using h

theorem build_forest_fold_wf : ∀ (keys : List String) (acc : List PTree),
    (∀ r ∈ acc, WellFormed 0 r) →
    List.Pairwise NoMutualPref acc →
    List.Pairwise (fun a b => pyStrLt a b = true) keys →
    (∀ q ∈ packagesList acc, ∀ k' ∈ keys, q < k') →
    (∀ r ∈ List.foldl
      (fun result package => insert_node_into_forest result (mkNode package 0)) acc keys,
      WellFormed 0 r) ∧
    List.Pairwise NoMutualPref (List.foldl
      (fun result package => insert_node_into_forest result (mkNode package 0)) acc keys) := by
  intro keys
  induction keys with
  | nil =>
    intro acc h1 h2 _ _
    exact ⟨h1, h2⟩
  | cons k ks ih =>
    intro acc h1 h2 hsorted hlt
    rw [List.foldl_cons]
    have hlt0 : ∀ q ∈ packagesList acc, q < k :=
      fun q hq => hlt q hq k (List.mem_cons_self _ _)
    obtain ⟨h1', h2'⟩ := insert_forest_wf acc k h1 h2 hlt0
    rw [List.pairwise_cons] at hsorted
    refine ih _ h1' h2' hsorted.2 ?_
    intro q hq k' hk'
    have hq' := (insert_forest_packages acc k).mem_iff.mp hq
    rcases List.mem_cons.mp hq' with rfl | hq''
    · exact (pyStrLt_iff q k').mp (hsorted.1 k' hk')
    · exact hlt q hq'' k' (List.mem_cons_of_mem _ hk')

/-- C5: from distinct keys in ascending lexicographic order,
`build_package_forest` yields a valid forest: every root tree is
well-formed (each node's stored depth equals its level, every child's
package extends its parent's package, and no two siblings are in a prefix
relation), the roots are pairwise prefix-free, and no node of any tree is
its own ancestor. -/
theorem c5_forest_validity (keys : List String)
    (hsorted : List.Pairwise (fun a b => pyStrLt a b = true) keys) :
    (∀ r ∈ build_package_forest keys, WellFormed 0 r) ∧
    List.Pairwise NoMutualPref (build_package_forest keys) ∧
    (∀ r ∈ build_package_forest keys, ∀ s, SubtreeOf s r → ¬ ProperDesc s s) := by
  obtain ⟨h1, h2⟩ := build_forest_fold_wf keys []
    (by intro r hr; cases hr) List.Pairwise.nil hsorted
    (by intro q hq; cases hq)
  exact ⟨h1, h2, fun r _ s _ => properDesc_irrefl s⟩

/-- C5 witness: the validity of the forest built from the sorted distinct
keys `//a`, `//a/b`, `//b`. -/
theorem c5_witness :
    (∀ r ∈ build_package_forest ["//a", "//a/b", "//b"], WellFormed 0 r) ∧
    List.Pairwise NoMutualPref (build_package_forest ["//a", "//a/b", "//b"]) ∧
    (∀ r ∈ build_package_forest ["//a", "//a/b", "//b"], ∀ s, SubtreeOf s r →
      ¬ ProperDesc s s) :=
  c5_forest_validity ["//a", "//a/b", "//b"] (by decide)

/-! ## C4: the overall percentage -/

theorem filter_length_split {α : Type} (l : List α) (p : α → Bool) :
    (l.filter p).length + (l.filter (fun a => !(p a))).length = l.length := by
  induction l with
  | nil => rfl
  | cons x xs ih =>
    by_cases h : p x = true
    · simp [List.filter, h, ← ih]
      omega
    · rw [Bool.not_eq_true] at h
      simp [List.filter, h, ← ih]
      omega

theorem sum_map_packagesList (cs : List PTree) (f : String → Nat) :
    ((packagesList cs).map f).sum =
      (cs.map (fun c => ((PTree.packages c).map f).sum)).sum := by
  induction cs with
  | nil => rfl
  | cons c rest ih =>
    simp only [packagesList, List.map_append, List.sum_append, List.map_cons, List.sum_cons, ih]

/-- Summing, over a duplicate-free package list covering every label, the
number of labels grouped into each package gives the total label count. -/
theorem partition_by_package : ∀ (pkgs : List String) (labels : List String),
    pkgs.Nodup →
    (∀ l ∈ labels, ∃ p, get_package l = some p ∧ p ∈ pkgs) →
    (pkgs.map (fun p =>
      (labels.filter (fun l => get_package l == some p)).length)).sum = labels.length := by
  intro pkgs
  induction pkgs with
  | nil =>
    intro labels _ hcov
    cases labels with
    | nil => rfl
    | cons l ls =>
      obtain ⟨p, _, hp⟩ := hcov l (List.mem_cons_self _ _)
      cases hp
  | cons p ps ih =>
    intro labels hnodup hcov
    rw [List.map_cons, List.sum_cons]
    rw [List.nodup_cons] at hnodup
    have hrest : ∀ q ∈ ps,
        labels.filter (fun l => get_package l == some q) =
        (labels.filter (fun l => !(get_package l == some p))).filter
          (fun l => get_package l == some q) := by
      intro q hq
      rw [List.filter_comm]
      refine (List.filter_eq_self.mpr ?_).symm
      intro l hl
      rw [List.mem_filter] at hl
      have hq' : get_package l = some q := by simpa using hl.2
      have hqp : q ≠ p := fun h => hnodup.1 (h ▸ hq)
      simp [hq', hqp]
    have hmaps : ps.map (fun q =>
        (labels.filter (fun l => get_package l == some q)).length) =
        ps.map (fun q =>
        ((labels.filter (fun l => !(get_package l == some p))).filter
          (fun l => get_package l == some q)).length) := by
      refine List.map_congr_left ?_
      intro q hq
      rw [hrest q hq]
    rw [hmaps, ih _ hnodup.2 ?_]
    · exact filter_length_split labels _
    · intro l hl
      rw [List.mem_filter] at hl
      obtain ⟨p', hp', hmem⟩ := hcov l hl.1
      rcases List.mem_cons.mp hmem with rfl | hmem'
      · exfalso
        simp [hp'] at hl
      · exact ⟨p', hp', hmem'⟩

/-- After aggregation, the subtree totals of a tree are the sums of the
per-package group sizes (and success counts) over all its packages. -/
theorem compute_counts_subtree_totals (t : PTree) (tfp : String → List String)
    (oc : String → PyOutcome) :
    (compute_counts t tfp oc).subtree_num_targets =
      ((PTree.packages t).map (fun q => (tfp q).length)).sum ∧
    (compute_counts t tfp oc).subtree_num_successes =
      ((PTree.packages t).map
        (fun q => (tfp q).countP (fun l => oc l == PyOutcome.str "success"))).sum := by
  refine ptree_ind (fun t =>
    (compute_counts t tfp oc).subtree_num_targets =
      ((PTree.packages t).map (fun q => (tfp q).length)).sum ∧
    (compute_counts t tfp oc).subtree_num_successes =
      ((PTree.packages t).map
        (fun q => (tfp q).countP (fun l => oc l == PyOutcome.str "success"))).sum) ?_ t
  intro p d cs a b c e ih
  simp only [compute_counts, compute_counts_list_eq_map, PTree.subtree_num_targets,
    PTree.subtree_num_successes, PTree.packages, List.map_cons, List.sum_cons, List.map_map]
  constructor
  · have hmap : cs.map (PTree.subtree_num_targets ∘ (fun c => compute_counts c tfp oc)) =
        cs.map (fun c => ((PTree.packages c).map (fun q => (tfp q).length)).sum) := by
      refine List.map_congr_left ?_
      intro x hx
      exact (ih x hx).1
    rw [hmap, ← sum_map_packagesList]
    omega
  · have hmap : cs.map (PTree.subtree_num_successes ∘ (fun c => compute_counts c tfp oc)) =
        cs.map (fun c => ((PTree.packages c).map
          (fun q => (tfp q).countP (fun l => oc l == PyOutcome.str "success"))).sum) := by
      refine List.map_congr_left ?_
      intro x hx
      exact (ih x hx).2
    rw [hmap, ← sum_map_packagesList]
    omega

/-- Counting successes through the total-ized lookup over the key list
equals counting success values directly (keys are distinct). -/
theorem lookup_success_count : ∀ (m : List (String × PyOutcome)),
    (m.map Prod.fst).Nodup →
    (m.map Prod.fst).countP (fun l => outcome_lookup m l == PyOutcome.str "success") =
      count_success_values m := by
  intro m
  induction m with
  | nil => intro _; rfl
  | cons kv rest ih =>
    intro hnodup
    obtain ⟨k, v⟩ := kv
    simp only [List.map_cons, List.nodup_cons] at hnodup ⊢
    rw [List.countP_cons]
    have hk : outcome_lookup ((k, v) :: rest) k = v := by
      simp [outcome_lookup, dictGet_cons]
    have hcong : (rest.map Prod.fst).countP
        (fun l => outcome_lookup ((k, v) :: rest) l == PyOutcome.str "success") =
        (rest.map Prod.fst).countP
        (fun l => outcome_lookup rest l == PyOutcome.str "success") := by
      refine List.countP_congr ?_
      intro l hl
      have hne : k ≠ l := fun h => hnodup.1 (h ▸ hl)
      simp [outcome_lookup, dictGet_cons, hne]
    rw [hcong, ih hnodup.2, hk]
    rw [count_success_values, count_success_values]
    by_cases hv : v = PyOutcome.str "success"
    · simp [hv]
    · have : (v == PyOutcome.str "success") = false := by
        simp [hv]
      simp [this]

/-- `format_two_dec` always renders exactly two digits after the point. -/
theorem format_two_dec_two_digits (q : ℚ) :
    ∃ intPart frac, format_two_dec q = intPart ++ "." ++ frac ∧ frac.length = 2 := by
  refine ⟨toString ((round (q * 100)).toNat / 100), ?_, ?_, ?_⟩
  · exact if (round (q * 100)).toNat % 100 < 10 then
      "0" ++ toString ((round (q * 100)).toNat % 100)
    else toString ((round (q * 100)).toNat % 100)
  · rw [format_two_dec]
  · have hb : (round (q * 100)).toNat % 100 < 100 := Nat.mod_lt _ (by norm_num)
    have hall : ∀ n < 100, (if n < 10 then "0" ++ toString n else toString n).length = 2 := by
      decide
    exact hall _ hb

/-- C4: with a nonempty outcome dict (distinct labels, all parseable), the
overall percentage is `100 * successes / total`, the root subtree counts
sum to exactly the total target count and total success count (so the same
ratio is obtained from the root aggregates), and the summary line renders
the percentage with exactly two decimal digits. -/
theorem c4_overall_percentage (m : List (String × PyOutcome))
    (hne : m ≠ [])
    (hnodup : (m.map Prod.fst).Nodup)
    (hpkg : ∀ l ∈ m.map Prod.fst, (get_package l).isSome) :
    overall_percentage m =
      .ok (((count_success_values m : ℚ) / (m.length : ℚ)) * 100) ∧
    ((main_counted_forest m).map PTree.subtree_num_targets).sum = m.length ∧
    ((main_counted_forest m).map PTree.subtree_num_successes).sum = count_success_values m ∧
    ((count_success_values m : ℚ) / (m.length : ℚ)) * 100 =
      ((((main_counted_forest m).map PTree.subtree_num_successes).sum : ℚ) /
        (((main_counted_forest m).map PTree.subtree_num_targets).sum : ℚ)) * 100 ∧
    (∃ intPart frac, summary_line m =
      .ok ("Overall build percent: " ++ (intPart ++ "." ++ frac) ++ "%") ∧
      frac.length = 2) := by
  have hlen0 : m.length ≠ 0 := by
    intro h
    exact hne (List.length_eq_zero.mp h)
  have hlen : ((m.length : ℚ)) ≠ 0 := Nat.cast_ne_zero.mpr hlen0
  have hA : overall_percentage m =
      .ok (((count_success_values m : ℚ) / (m.length : ℚ)) * 100) := by
    rw [overall_percentage, pyDiv, if_neg hlen]
    rfl
  have hkeysnodup : (package_keys (m.map Prod.fst)).Nodup := by
    rw [package_keys]
    exact ((sortByKey_perm id _).nodup_iff).mpr (List.nodup_dedup _)
  have hcov : ∀ l ∈ m.map Prod.fst, ∃ p, get_package l = some p ∧
      p ∈ package_keys (m.map Prod.fst) := by
    intro l hl
    obtain ⟨p, hp⟩ := Option.isSome_iff_exists.mp (hpkg l hl)
    refine ⟨p, hp, ?_⟩
    rw [package_keys, List.Perm.mem_iff (sortByKey_perm id _), List.mem_dedup]
    exact List.mem_filterMap.mpr ⟨l, hl, hp⟩
  have hB : ((main_counted_forest m).map PTree.subtree_num_targets).sum = m.length := by
    rw [main_counted_forest, main_forest, List.map_map]
    have hmap : (build_package_forest (package_keys (m.map Prod.fst))).map
        (PTree.subtree_num_targets ∘ fun r =>
          compute_counts r (package_to_targets_fn (m.map Prod.fst)) (outcome_lookup m)) =
        (build_package_forest (package_keys (m.map Prod.fst))).map
        (fun r => ((PTree.packages r).map
          (fun q => (package_to_targets_fn (m.map Prod.fst) q).length)).sum) :=
      List.map_congr_left (fun r _ => (compute_counts_subtree_totals r _ _).1)
    rw [hmap, ← sum_map_packagesList]
    rw [((build_forest_packages (package_keys (m.map Prod.fst))).map
      (fun q => (package_to_targets_fn (m.map Prod.fst) q).length)).sum_eq]
    have hpart := partition_by_package (package_keys (m.map Prod.fst)) (m.map Prod.fst)
      hkeysnodup hcov
    simp only [package_to_targets_fn]
    rw [hpart, List.length_map]
  have hC : ((main_counted_forest m).map PTree.subtree_num_successes).sum =
      count_success_values m := by
    rw [main_counted_forest, main_forest, List.map_map]
    have hmap : (build_package_forest (package_keys (m.map Prod.fst))).map
        (PTree.subtree_num_successes ∘ fun r =>
          compute_counts r (package_to_targets_fn (m.map Prod.fst)) (outcome_lookup m)) =
        (build_package_forest (package_keys (m.map Prod.fst))).map
        (fun r => ((PTree.packages r).map
          (fun q => (package_to_targets_fn (m.map Prod.fst) q).countP
            (fun l => outcome_lookup m l == PyOutcome.str "success"))).sum) :=
      List.map_congr_left (fun r _ => (compute_counts_subtree_totals r _ _).2)
    rw [hmap, ← sum_map_packagesList]
    rw [((build_forest_packages (package_keys (m.map Prod.fst))).map
      (fun q => (package_to_targets_fn (m.map Prod.fst) q).countP
        (fun l => outcome_lookup m l == PyOutcome.str "success"))).sum_eq]
    have hswap : (package_keys (m.map Prod.fst)).map
        (fun q => (package_to_targets_fn (m.map Prod.fst) q).countP
          (fun l => outcome_lookup m l == PyOutcome.str "success")) =
        (package_keys (m.map Prod.fst)).map
        (fun q => (((m.map Prod.fst).filter
          (fun l => outcome_lookup m l == PyOutcome.str "success")).filter
            (fun l => get_package l == some q)).length) := by
      refine List.map_congr_left ?_
      intro q _
      rw [package_to_targets_fn, List.countP_eq_length_filter, List.filter_comm]
    rw [hswap]
    have hcov' : ∀ l ∈ (m.map Prod.fst).filter
        (fun l => outcome_lookup m l == PyOutcome.str "success"),
        ∃ p, get_package l = some p ∧ p ∈ package_keys (m.map Prod.fst) := by
      intro l hl
      exact hcov l (List.mem_of_mem_filter hl)
    rw [partition_by_package (package_keys (m.map Prod.fst)) _ hkeysnodup hcov']
    rw [← List.countP_eq_length_filter]
    exact lookup_success_count m hnodup
  refine ⟨hA, hB, hC, ?_, ?_⟩
  · rw [hB, hC]
  · obtain ⟨intPart, frac, heq, hlen2⟩ :=
      format_two_dec_two_digits (((count_success_values m : ℚ) / (m.length : ℚ)) * 100)
    refine ⟨intPart, frac, ?_, hlen2⟩
    rw [summary_line, hA]
    show Except.ok ("Overall build percent: " ++
      format_two_dec (((count_success_values m : ℚ) / (m.length : ℚ)) * 100) ++ "%") = _
    rw [heq]

/-- C4 witness: two targets in two packages, one success. -/
theorem c4_witness :
    overall_percentage [("//a:x", PyOutcome.str "success"), ("//b:y", PyOutcome.str "boom")] =
      .ok (((count_success_values
        [("//a:x", PyOutcome.str "success"), ("//b:y", PyOutcome.str "boom")] : ℚ) /
        (([("//a:x", PyOutcome.str "success"), ("//b:y", PyOutcome.str "boom")].length : ℚ))) *
        100) ∧
    ((main_counted_forest
      [("//a:x", PyOutcome.str "success"), ("//b:y", PyOutcome.str "boom")]).map
      PTree.subtree_num_targets).sum =
      [("//a:x", PyOutcome.str "success"), ("//b:y", PyOutcome.str "boom")].length ∧
    ((main_counted_forest
      [("//a:x", PyOutcome.str "success"), ("//b:y", PyOutcome.str "boom")]).map
      PTree.subtree_num_successes).sum =
      count_success_values
        [("//a:x", PyOutcome.str "success"), ("//b:y", PyOutcome.str "boom")] ∧
    ((count_success_values
      [("//a:x", PyOutcome.str "success"), ("//b:y", PyOutcome.str "boom")] : ℚ) /
      (([("//a:x", PyOutcome.str "success"), ("//b:y", PyOutcome.str "boom")].length : ℚ))) *
      100 =
      ((((main_counted_forest
        [("//a:x", PyOutcome.str "success"), ("//b:y", PyOutcome.str "boom")]).map
        PTree.subtree_num_successes).sum : ℚ) /
        (((main_counted_forest
          [("//a:x", PyOutcome.str "success"), ("//b:y", PyOutcome.str "boom")]).map
          PTree.subtree_num_targets).sum : ℚ)) * 100 ∧
    (∃ intPart frac, summary_line
      [("//a:x", PyOutcome.str "success"), ("//b:y", PyOutcome.str "boom")] =
      .ok ("Overall build percent: " ++ (intPart ++ "." ++ frac) ++ "%") ∧
      frac.length = 2) :=
  c4_overall_percentage
    [("//a:x", PyOutcome.str "success"), ("//b:y", PyOutcome.str "boom")]
    (by decide) (by decide) (by decide)
